import Mathlib

/-!
Verification of the RepoRAG-MCP chunking and incremental-build pipeline.

This file shallowly embeds the pieces of the repository that the claims
are about:

* `incrementalBuilder.py` (`IncrementalBuilder`): file-state cache,
  change classification, deletion reporting, cache persistence.
* `codeChunker.py` (`CodeChunker`): per-file record construction
  (`process_file`), directory batching (`process_directory`), identity
  generation (`_generate_uid`), and the incremental record merge
  (`save_jsonl` / `run`).
* `LanguageChunker/PythonChunker.py` and `LanguageChunker/JavaChunker.py`:
  capture walking, parent resolution by tree-ancestor walk plus capture
  re-scan, and reference extraction.

Modelling conventions: filesystem paths are lists of components; the
machinery of the external tree-sitter engine (parsing, query evaluation)
is out of scope per the specification, so capture sequences and the set
of identifier tokens below a node arrive as inputs; the `md5` digest of
`hashlib` (an external library) is modelled by an injective stand-in,
since no claim depends on anything but determinism of the digest;
mtimes (Python floats compared with `>`) are modelled as integers, only
their ordering is ever used; the enumeration order of a CPython string
set, which depends on the per-process hash seed, is modelled by an
explicit enumeration parameter (`PySetOrder`).
-/

/-- A filesystem path, modelled as its list of components. -/
abbrev FsPath := List String

/-- The per-file state recorded by the tracker: `_get_file_info` returns
the pair (mtime, content hash). -/
structure FileInfo where
  mtime : Int
  hash : String
deriving DecidableEq, Repr

/-- The in-memory cache of `IncrementalBuilder`: a `files` mapping from
repository-relative path to `FileInfo` (a Python dict, modelled as an
association list in insertion order) and the `deleted_files` set
(modelled as a list, used only through membership). -/
structure BuildCache where
  files : List (FsPath × FileInfo)
  deletedFiles : List FsPath
deriving DecidableEq, Repr

/-- Python dict lookup on the association list (keys are unique in a
dict; the first match is the binding). -/
def lookupFile : List (FsPath × FileInfo) → FsPath → Option FileInfo
  | [], _ => none
  | (k, v) :: rest, p => if k = p then some v else lookupFile rest p

/-- Python dict assignment `d[k] = v`: replaces the binding in place if
the key exists, otherwise appends a new binding. -/
def dictSet : List (FsPath × FileInfo) → FsPath → FileInfo → List (FsPath × FileInfo)
  | [], k, v => [(k, v)]
  | (k2, v2) :: rest, k, v =>
    if k2 = k then (k, v) :: rest else (k2, v2) :: dictSet rest k v

/-- Length of the longest common component prefix of two paths. -/
def commonPrefixLen : FsPath → FsPath → Nat
  | a :: as, b :: bs => if a = b then commonPrefixLen as bs + 1 else 0
  | _, _ => 0

/-- `os.path.relpath p base` on normalized paths: strip the common
prefix and climb with `..` for the remaining components of `base`. -/
def relPath (p base : FsPath) : FsPath :=
  let n := commonPrefixLen p base
  List.replicate (base.length - n) ".." ++ p.drop n

/-- One entry of the current file listing, as seen by
`get_changed_files`: the relative path together with the outcome of
`_get_file_info` (`none` models the per-file exception branch, in which
the file is unconditionally added to the changed set). -/
abbrev Listing := List (FsPath × Option FileInfo)

/-- The classification loop of `IncrementalBuilder.get_changed_files`
(lines 118-132): a current file is added to `changed_files` (as an
absolute path, `repo ++ p`) when stat or read failed, when it is not in
the cache (new), or when `current_mtime > cached_mtime or current_hash
!= cached_hash` (modified). -/
def changedOf (repo : FsPath) (cache : BuildCache) : Listing → List FsPath
  | [] => []
  | (p, none) :: rest => (repo ++ p) :: changedOf repo cache rest
  | (p, some fi) :: rest =>
    match lookupFile cache.files p with
    | none => (repo ++ p) :: changedOf repo cache rest
    | some ci =>
      if fi.mtime > ci.mtime ∨ fi.hash ≠ ci.hash then
        (repo ++ p) :: changedOf repo cache rest
      else
        changedOf repo cache rest

/-- The deletion scan of `get_changed_files` (lines 134-138): cached
paths absent from the current listing and not already recorded as
deleted. -/
def newlyDeleted (cache : BuildCache) (cur : Listing) : List FsPath :=
  (cache.files.map Prod.fst).filter
    (fun p => decide (p ∉ cur.map Prod.fst ∧ p ∉ cache.deletedFiles))

/-- The observable outcome of one `get_changed_files` cycle: the changed
set, the deleted-files report printed for this cycle, and the cache that
is saved at the end of the cycle (line 140-141: the `files` mapping is
untouched, `deleted_files` is grown by the newly detected deletions). -/
structure ChangeResult where
  changedFiles : List FsPath
  deletedReport : List FsPath
  newCache : BuildCache
deriving Repr

/-- `IncrementalBuilder.get_changed_files`, one build cycle over the
loaded cache and the current listing. -/
def get_changed_files (repo : FsPath) (cache : BuildCache) (cur : Listing) : ChangeResult :=
  let nd := newlyDeleted cache cur
  { changedFiles := changedOf repo cache cur
    deletedReport := nd
    newCache := { files := cache.files, deletedFiles := cache.deletedFiles ++ nd } }

/-- `IncrementalBuilder.update_cache` (lines 161-171): for each
processed absolute path, recompute the file info and assign it under the
relative key; a per-file failure (modelled by `info a = none`) skips
that file. -/
def update_cache (repo : FsPath) (cache : BuildCache) (processed : List FsPath)
    (info : FsPath → Option FileInfo) : BuildCache :=
  { cache with
    files := processed.foldl (fun m a =>
      match info a with
      | some fi => dictSet m (relPath a repo) fi
      | none => m) cache.files }

/-- The persisted cache document (`{repo_name}_file_state.json`): a
`files` mapping whose keys are whatever `_save_cache` writes, with
`[mtime, hash]` values, plus a `deleted_files` list. -/
structure CacheDoc where
  files : List (FsPath × (Int × String))
  deletedFiles : List FsPath
deriving DecidableEq, Repr

/-- `IncrementalBuilder._save_cache` (lines 59-69): each relative key is
joined with the repository root (`os.path.join(self.repo_path, k)`)
before being written, and each `FileInfo` becomes a `[mtime, hash]`
pair. -/
def save_cache (repo : FsPath) (cache : BuildCache) : CacheDoc :=
  { files := cache.files.map (fun kv => (repo ++ kv.1, (kv.2.mtime, kv.2.hash)))
    deletedFiles := cache.deletedFiles }

/-- `IncrementalBuilder._load_cache` (lines 49-53), modern-format
branch: each persisted key is relativized against the repository root
(`os.path.relpath(k, self.repo_path)`) and the value pair becomes a
`FileInfo`. -/
def load_cache (repo : FsPath) (doc : CacheDoc) : BuildCache :=
  { files := doc.files.map (fun kv => (relPath kv.1 repo, ⟨kv.2.1, kv.2.2⟩))
    deletedFiles := doc.deletedFiles }

/-- The name of the cache file, one per repository name
(`f"{repo_name}_file_state.json"`). -/
def cache_file_name (repoName : String) : String :=
  repoName ++ "_file_state.json"

/-- A sequence of build cycles: each cycle classifies against the cache
left by the previous cycle; collects the per-cycle deleted-files
reports and the final cache. -/
def run_cycles (repo : FsPath) (cache : BuildCache) : List Listing → List (List FsPath) × BuildCache
  | [] => ([], cache)
  | l :: ls =>
    ((get_changed_files repo cache l).deletedReport ::
        (run_cycles repo (get_changed_files repo cache l).newCache ls).1,
      (run_cycles repo (get_changed_files repo cache l).newCache ls).2)

/-- Whether one listing entry lands in the changed set; mirrors the
branch structure of `changedOf`. -/
def entryChanged (cache : BuildCache) : FsPath × Option FileInfo → Prop
  | (_, none) => True
  | (p, some fi) =>
    match lookupFile cache.files p with
    | none => True
    | some ci => fi.mtime > ci.mtime ∨ fi.hash ≠ ci.hash

theorem changedOf_cons_of_mem (repo : FsPath) (cache : BuildCache) (b : FsPath × Option FileInfo)
    (rest : Listing) (y : FsPath) (hy : y ∈ changedOf repo cache rest) :
    y ∈ changedOf repo cache (b :: rest) := by
  obtain ⟨q, o⟩ := b
  cases o with
  | none => exact List.mem_cons_of_mem _ hy
  | some fi =>
    show y ∈ match lookupFile cache.files q with
      | none => (repo ++ q) :: changedOf repo cache rest
      | some ci =>
        if fi.mtime > ci.mtime ∨ fi.hash ≠ ci.hash then
          (repo ++ q) :: changedOf repo cache rest
        else
          changedOf repo cache rest
    split
    · exact List.mem_cons_of_mem _ hy
    · split
      · exact List.mem_cons_of_mem _ hy
      · exact hy

theorem mem_changedOf_of (repo : FsPath) (cache : BuildCache) (cur : Listing)
    (p : FsPath) (o : Option FileInfo) (hmem : (p, o) ∈ cur)
    (hc : entryChanged cache (p, o)) :
    repo ++ p ∈ changedOf repo cache cur := by
  induction hmem with
  | head rest =>
    cases o with
    | none => exact List.mem_cons_self _ _
    | some fi =>
      have hc2 : (match lookupFile cache.files p with
          | none => True
          | some ci => fi.mtime > ci.mtime ∨ fi.hash ≠ ci.hash) := hc
      show repo ++ p ∈ match lookupFile cache.files p with
        | none => (repo ++ p) :: changedOf repo cache rest
        | some ci =>
          if fi.mtime > ci.mtime ∨ fi.hash ≠ ci.hash then
            (repo ++ p) :: changedOf repo cache rest
          else
            changedOf repo cache rest
      cases h : lookupFile cache.files p with
      | none => exact List.mem_cons_self _ _
      | some ci =>
        rw [h] at hc2
        have hc3 : fi.mtime > ci.mtime ∨ fi.hash ≠ ci.hash := hc2
        show repo ++ p ∈ (if fi.mtime > ci.mtime ∨ fi.hash ≠ ci.hash then
            (repo ++ p) :: changedOf repo cache rest else changedOf repo cache rest)
        rw [if_pos hc3]
        exact List.mem_cons_self _ _
  | tail b _ ih =>
    exact changedOf_cons_of_mem repo cache b _ _ ih

theorem mem_changedOf_elim (repo : FsPath) (cache : BuildCache) :
    ∀ (cur : Listing) (x : FsPath), x ∈ changedOf repo cache cur →
      ∃ e ∈ cur, x = repo ++ e.1 ∧ entryChanged cache e := by
  intro cur
  induction cur with
  | nil => intro x hx; cases hx
  | cons e rest ih =>
    intro x hx
    obtain ⟨p, o⟩ := e
    cases o with
    | none =>
      rcases List.mem_cons.mp hx with rfl | hx2
      · exact ⟨(p, none), List.mem_cons_self _ _, rfl, trivial⟩
      · obtain ⟨e2, he2, hxe, hce⟩ := ih x hx2
        exact ⟨e2, List.mem_cons_of_mem _ he2, hxe, hce⟩
    | some fi =>
      have hx2 : x ∈ match lookupFile cache.files p with
          | none => (repo ++ p) :: changedOf repo cache rest
          | some ci =>
            if fi.mtime > ci.mtime ∨ fi.hash ≠ ci.hash then
              (repo ++ p) :: changedOf repo cache rest
            else
              changedOf repo cache rest := hx
      cases h : lookupFile cache.files p with
      | none =>
        rw [h] at hx2
        rcases List.mem_cons.mp hx2 with rfl | hx3
        · exact ⟨(p, some fi), List.mem_cons_self _ _, rfl, by
            show (match lookupFile cache.files p with
              | none => True
              | some ci => fi.mtime > ci.mtime ∨ fi.hash ≠ ci.hash)
            rw [h]; trivial⟩
        · obtain ⟨e2, he2, hxe, hce⟩ := ih _ hx3
          exact ⟨e2, List.mem_cons_of_mem _ he2, hxe, hce⟩
      | some ci =>
        rw [h] at hx2
        have hx2b : x ∈ (if fi.mtime > ci.mtime ∨ fi.hash ≠ ci.hash then
            (repo ++ p) :: changedOf repo cache rest else changedOf repo cache rest) := hx2
        by_cases hcond : fi.mtime > ci.mtime ∨ fi.hash ≠ ci.hash
        · rw [if_pos hcond] at hx2b
          rcases List.mem_cons.mp hx2b with rfl | hx3
          · exact ⟨(p, some fi), List.mem_cons_self _ _, rfl, by
              show (match lookupFile cache.files p with
                | none => True
                | some ci => fi.mtime > ci.mtime ∨ fi.hash ≠ ci.hash)
              rw [h]; exact hcond⟩
          · obtain ⟨e2, he2, hxe, hce⟩ := ih _ hx3
            exact ⟨e2, List.mem_cons_of_mem _ he2, hxe, hce⟩
        · rw [if_neg hcond] at hx2b
          obtain ⟨e2, he2, hxe, hce⟩ := ih _ hx2b
          exact ⟨e2, List.mem_cons_of_mem _ he2, hxe, hce⟩

/-- Keys-nodup listings bind each path to a unique stat outcome. -/
theorem listing_nodup_eq {cur : Listing} (hnd : (cur.map Prod.fst).Nodup)
    {p : FsPath} {a b : Option FileInfo} (ha : (p, a) ∈ cur) (hb : (p, b) ∈ cur) : a = b := by
  induction cur with
  | nil => cases ha
  | cons e rest ih =>
    simp only [List.map_cons, List.nodup_cons] at hnd
    rcases List.mem_cons.mp ha with rfl | ha2
    · rcases List.mem_cons.mp hb with hb1 | hb2
      · exact (congrArg Prod.snd hb1.symm)
      · exact absurd (List.mem_map.mpr ⟨(p, b), hb2, rfl⟩) hnd.1
    · rcases List.mem_cons.mp hb with rfl | hb2
      · exact absurd (List.mem_map.mpr ⟨(p, a), ha2, rfl⟩) hnd.1
      · exact ih hnd.2 ha2 hb2

/-- C1, counterexample. The claim says a known file whose bytes are
unaltered (current hash equals cached hash) but whose mtime was touched
to a newer value is classified as unchanged. On the code it is
classified as modified: with cached state (mtime 1, hash "h") and
current state (mtime 2, hash "h"), the file lands in the changed set. -/
theorem touched_file_is_reprocessed_cex :
    ["r", "a.py"] ∈ (get_changed_files ["r"]
      { files := [(["a.py"], { mtime := 1, hash := "h" })], deletedFiles := [] }
      [(["a.py"], some { mtime := 2, hash := "h" })]).changedFiles := by
  decide

/-- C1, amended: for a known file, a strictly newer mtime alone (equal
content hash) does force reprocessing; mtime is not dominated by the
hash in `get_changed_files` (line 127 tests
`current_mtime > cached_mtime or current_hash != cached_hash`). -/
theorem touched_file_is_reprocessed (repo p : FsPath) (cache : BuildCache) (cur : Listing)
    (fi ci : FileInfo) (hmem : (p, some fi) ∈ cur)
    (hc : lookupFile cache.files p = some ci)
    (hhash : fi.hash = ci.hash) (hmt : fi.mtime > ci.mtime) :
    repo ++ p ∈ (get_changed_files repo cache cur).changedFiles := by
  refine mem_changedOf_of repo cache cur p (some fi) hmem ?_
  show (match lookupFile cache.files p with
    | none => True
    | some ci => fi.mtime > ci.mtime ∨ fi.hash ≠ ci.hash)
  rw [hc]
  exact .inl hmt

/-- C1 witness: the amended theorem applied to the concrete touched
file. -/
theorem touched_file_is_reprocessed_witness :
    ["root", "b.py"] ∈ (get_changed_files ["root"]
      { files := [(["b.py"], { mtime := 7, hash := "hh" })], deletedFiles := [] }
      [(["b.py"], some { mtime := 9, hash := "hh" })]).changedFiles :=
  touched_file_is_reprocessed ["root"] ["b.py"] _ _
    { mtime := 9, hash := "hh" } { mtime := 7, hash := "hh" }
    (by decide) (by decide) rfl (by decide)

/-- C4: a file present in both the cache and the current listing is in
the changed (reprocess) set iff its current mtime is strictly newer than
the cached mtime or its current hash differs from the cached hash; when
both match, it is skipped. -/
theorem known_file_modified_iff (repo p : FsPath) (cache : BuildCache) (cur : Listing)
    (fi ci : FileInfo)
    (hnd : (cur.map Prod.fst).Nodup)
    (hmem : (p, some fi) ∈ cur)
    (hc : lookupFile cache.files p = some ci) :
    repo ++ p ∈ (get_changed_files repo cache cur).changedFiles ↔
      (fi.mtime > ci.mtime ∨ fi.hash ≠ ci.hash) := by
  constructor
  · intro hin
    obtain ⟨⟨q, o⟩, he, hx, hcc⟩ := mem_changedOf_elim repo cache cur _ hin
    have hq : q = p := (List.append_cancel_left hx.symm)
    rw [hq] at he hcc
    have ho : o = some fi := listing_nodup_eq hnd he hmem
    rw [ho] at hcc
    have hcc2 : (match lookupFile cache.files p with
        | none => True
        | some ci => fi.mtime > ci.mtime ∨ fi.hash ≠ ci.hash) := hcc
    rw [hc] at hcc2
    exact hcc2
  · intro h
    refine mem_changedOf_of repo cache cur p (some fi) hmem ?_
    show (match lookupFile cache.files p with
      | none => True
      | some ci => fi.mtime > ci.mtime ∨ fi.hash ≠ ci.hash)
    rw [hc]
    exact h

/-- C4 witness: the classification equivalence applied to a concrete
known file whose hash changed but whose mtime did not. -/
theorem known_file_modified_iff_witness :
    (["r", "c.py"] ∈ (get_changed_files ["r"]
      { files := [(["c.py"], { mtime := 3, hash := "old" })], deletedFiles := [] }
      [(["c.py"], some { mtime := 3, hash := "new" })]).changedFiles ↔
      ((3 : Int) > 3 ∨ ("new" : String) ≠ "old")) :=
  known_file_modified_iff ["r"] ["c.py"] _ _
    { mtime := 3, hash := "new" } { mtime := 3, hash := "old" }
    (by decide) (by decide) (by decide)

theorem not_mem_newlyDeleted_of_deleted (cache : BuildCache) (cur : Listing) (p : FsPath)
    (hp : p ∈ cache.deletedFiles) : p ∉ newlyDeleted cache cur := by
  intro hmem
  have h := (List.mem_filter.mp hmem).2
  rw [decide_eq_true_eq] at h
  exact h.2 hp

/-- C5: once a path is recorded in `deleted_files`, it is never reported
as deleted in any later cycle (the newly-deleted scan skips paths
already in the set, and the set only grows); and a cached file is
reported as deleted only when it is absent from the current listing and
not already recorded as deleted. -/
theorem deletion_report_idempotent :
    (∀ (repo : FsPath) (cache : BuildCache) (listings : List Listing) (p : FsPath),
      p ∈ cache.deletedFiles →
      ∀ rep ∈ (run_cycles repo cache listings).1, p ∉ rep)
  ∧ (∀ (repo : FsPath) (cache : BuildCache) (cur : Listing) (p : FsPath),
      p ∈ (get_changed_files repo cache cur).deletedReport →
      p ∈ cache.files.map Prod.fst ∧ p ∉ cur.map Prod.fst ∧ p ∉ cache.deletedFiles) := by
  constructor
  · intro repo cache listings
    induction listings generalizing cache with
    | nil => intro p hp rep hrep; cases hrep
    | cons l ls ih =>
      intro p hp rep hrep
      rcases List.mem_cons.mp hrep with rfl | h2
      · exact not_mem_newlyDeleted_of_deleted cache l p hp
      · exact ih (get_changed_files repo cache l).newCache p
          (List.mem_append_left _ hp) rep h2
  · intro repo cache cur p hp
    have h1 := (List.mem_filter.mp hp).1
    have h2 := (List.mem_filter.mp hp).2
    rw [decide_eq_true_eq] at h2
    exact ⟨h1, h2.1, h2.2⟩

/-- C5 witness: a path already recorded as deleted is absent from the
deletion report of the next cycle, even though it is still cached and
still missing from the listing. -/
theorem deletion_report_idempotent_witness :
    (["a"] : FsPath) ∉ ((run_cycles ["r"]
      { files := [(["a"], { mtime := 1, hash := "h" }), (["b"], { mtime := 1, hash := "h" })],
        deletedFiles := [["a"]] } [[]]).1.getD 0 []) :=
  deletion_report_idempotent.1 ["r"]
    { files := [(["a"], { mtime := 1, hash := "h" }), (["b"], { mtime := 1, hash := "h" })],
      deletedFiles := [["a"]] } [[]] ["a"] (by decide)
    ((run_cycles ["r"]
      { files := [(["a"], { mtime := 1, hash := "h" }), (["b"], { mtime := 1, hash := "h" })],
        deletedFiles := [["a"]] } [[]]).1.getD 0 []) (by decide)

theorem lookupFile_dictSet_ne (m : List (FsPath × FileInfo)) (k q : FsPath) (v : FileInfo)
    (h : k ≠ q) : lookupFile (dictSet m k v) q = lookupFile m q := by
  induction m with
  | nil => simp [dictSet, lookupFile, h]
  | cons kv rest ih =>
    obtain ⟨k2, v2⟩ := kv
    by_cases h2 : k2 = k
    · subst h2
      simp [dictSet, lookupFile, h]
    · simp only [dictSet, if_neg h2, lookupFile]
      by_cases h3 : k2 = q
      · simp [h3]
      · simp [h3, ih]

/-- C10: `get_changed_files` never modifies a per-file (mtime, hash)
entry: the cache it saves has the `files` mapping it loaded, with only
`deleted_files` grown by this cycle's deletion report; and
`update_cache` leaves `deleted_files` alone and rewrites a per-file
entry only for keys that are the relativized path of some processed
file. -/
theorem cache_frame_property :
    (∀ (repo : FsPath) (cache : BuildCache) (cur : Listing),
      (get_changed_files repo cache cur).newCache.files = cache.files ∧
      (get_changed_files repo cache cur).newCache.deletedFiles
        = cache.deletedFiles ++ (get_changed_files repo cache cur).deletedReport)
  ∧ (∀ (repo : FsPath) (cache : BuildCache) (processed : List FsPath)
      (info : FsPath → Option FileInfo),
      (update_cache repo cache processed info).deletedFiles = cache.deletedFiles ∧
      ∀ q : FsPath, (∀ a ∈ processed, relPath a repo ≠ q) →
        lookupFile (update_cache repo cache processed info).files q
          = lookupFile cache.files q) := by
  refine ⟨fun repo cache cur => ⟨rfl, rfl⟩, fun repo cache processed info => ⟨rfl, ?_⟩⟩
  intro q hq
  show lookupFile (processed.foldl _ cache.files) q = lookupFile cache.files q
  induction processed generalizing cache with
  | nil => rfl
  | cons a rest ih =>
    have ha : relPath a repo ≠ q := hq a (List.mem_cons_self _ _)
    have hrest : ∀ b ∈ rest, relPath b repo ≠ q :=
      fun b hb => hq b (List.mem_cons_of_mem _ hb)
    show lookupFile (rest.foldl _ (match info a with
        | some fi => dictSet cache.files (relPath a repo) fi
        | none => cache.files)) q = lookupFile cache.files q
    cases hi : info a with
    | none =>
      exact ih cache hrest
    | some fi =>
      have step := ih
        (BuildCache.mk (dictSet cache.files (relPath a repo) fi) cache.deletedFiles) hrest
      exact step.trans (lookupFile_dictSet_ne cache.files (relPath a repo) q fi ha)

/-- C10 witness: updating the cache for one processed file leaves the
entry of an untouched file unchanged. -/
theorem cache_frame_property_witness :
    lookupFile (update_cache ["r"]
      { files := [(["y.py"], { mtime := 2, hash := "g" })], deletedFiles := [] }
      [["r", "x.py"]] (fun _ => some { mtime := 5, hash := "h2" })).files ["y.py"]
      = lookupFile [(["y.py"], { mtime := 2, hash := "g" })] ["y.py"] :=
  (cache_frame_property.2 ["r"]
    { files := [(["y.py"], { mtime := 2, hash := "g" })], deletedFiles := [] }
    [["r", "x.py"]] (fun _ => some { mtime := 5, hash := "h2" })).2 ["y.py"] (by decide)

theorem commonPrefixLen_append (repo k : FsPath) :
    commonPrefixLen (repo ++ k) repo = repo.length := by
  induction repo with
  | nil => cases k <;> rfl
  | cons a repo2 ih => simp [commonPrefixLen, ih]

theorem relPath_append (repo k : FsPath) : relPath (repo ++ k) repo = k := by
  unfold relPath
  rw [commonPrefixLen_append]
  simp

/-- C8, counterexample. The claim says the persisted document's `files`
mapping is keyed by paths relative to the repository root; but
`_save_cache` joins every relative key with the repository root before
writing, so the persisted keys are absolute. -/
theorem save_cache_keys_not_relative_cex :
    ((save_cache ["home", "repo"]
      { files := [(["a.py"], { mtime := 1, hash := "h" })], deletedFiles := [] }).files.map
        Prod.fst) ≠ [(["a.py"] : FsPath)] := by
  decide

/-- C8, amended: the persisted document is keyed by absolute paths (the
repository root joined with each relative key), each mapping to an
(mtime, hash) pair, together with the `deleted_files` list; loading a
document saved by the tracker relativizes the keys back and recovers
exactly the in-memory cache state. -/
theorem save_cache_roundtrip :
    ∀ (repo : FsPath) (cache : BuildCache),
      load_cache repo (save_cache repo cache) = cache ∧
      (save_cache repo cache).files.map Prod.fst
        = cache.files.map (fun kv => repo ++ kv.1) := by
  intro repo cache
  constructor
  · obtain ⟨files, deleted⟩ := cache
    simp only [save_cache, load_cache, List.map_map]
    congr 1
    have h : ∀ kv ∈ files,
        ((fun kv => (relPath kv.1 repo, (⟨kv.2.1, kv.2.2⟩ : FileInfo))) ∘
          (fun kv => (repo ++ kv.1, (kv.2.mtime, kv.2.hash)))) kv = id kv := by
      intro kv _
      simp [relPath_append]
    rw [List.map_congr_left h, List.map_id]
  · simp only [save_cache, List.map_map]
    rfl

/-- Stand-in for the hex digest of `hashlib.md5` (an external library):
an injective deterministic digest; no claim depends on anything but
determinism of the digest of the composite string. -/
def md5Hex (s : String) : String :=
  "md5(" ++ s ++ ")"

/-- `CodeChunker._generate_uid` (lines 54-56): the identity is the
digest of `f"{file_path}:{chunk_id}"`. -/
def generate_uid (filePath chunkId : String) : String :=
  md5Hex (filePath ++ ":" ++ chunkId)

/-- The header metadata extracted from a curated markdown document by
`extract_code_info` (a deterministic regex scan over the file content,
taken here as an input). -/
structure DocInfo where
  filename : String
  filepath : String
  language : String
deriving DecidableEq, Repr

/-- The outcome of opening and scanning one curated file: header info
plus the fenced code block text from `extract_code_content`. -/
structure FileRead where
  info : DocInfo
  code : String
deriving DecidableEq, Repr

/-- The per-chunk metadata dict produced by a language chunker. The
`parent` key is only ever set for member chunks; `none` models an
absent key (so `chunk_meta.get("parent", None)` yields `None`). -/
structure ChunkMeta where
  content : String
  start_line : Nat
  end_line : Nat
  chunk_type : String
  name : String
  parent : Option String
  language : String
  imports : List String
  references : List String
deriving DecidableEq, Repr

/-- One JSONL record written by `CodeChunker.process_file`
(lines 113-132). -/
structure ChunkRecord where
  id : String
  text : String
  source : String
  filename : String
  filepath : String
  language : String
  repository : String
  chunk_index : Nat
  type : String
  code_type : String
  name : String
  parent : Option String
  dependencies : List String
  methods : List String
  start_line : Nat
  end_line : Nat
  imports : List String
  references : List String
deriving DecidableEq, Repr

/-- Python `not chunk_text.strip()`: true iff the text has no
non-whitespace character. -/
def isBlank (s : String) : Bool :=
  s.toList.all Char.isWhitespace

/-- The record built for the chunk at position `i` of the extractor
output: the composite key is `f"{filename}:{chunk_type}:{i}"`, the
identity is `_generate_uid(file_path, chunk_id)`, and `chunk_index` is
`i` (`codeChunker.py` lines 109-132). -/
def chunk_record (repoName filePath : String) (info : DocInfo) (i : Nat)
    (ck : String × ChunkMeta) : ChunkRecord :=
  { id := generate_uid filePath (info.filename ++ ":" ++ ck.2.chunk_type ++ ":" ++ toString i)
    text := ck.2.content
    source := filePath
    filename := info.filename
    filepath := info.filepath
    language := info.language
    repository := repoName
    chunk_index := i
    type := ck.2.chunk_type
    code_type := ck.2.chunk_type
    name := ck.2.name
    parent := ck.2.parent
    dependencies := []
    methods := []
    start_line := ck.2.start_line
    end_line := ck.2.end_line
    imports := ck.2.imports
    references := ck.2.references }

/-- The `for i, (chunk_text, chunk_meta) in enumerate(code_chunks)` loop
of `process_file` (lines 105-133): whitespace-only chunk texts are
skipped with `continue`, but the enumeration index `i` keeps counting
the skipped entries. -/
def chunk_records (repoName filePath : String) (info : DocInfo) :
    Nat → List (String × ChunkMeta) → List ChunkRecord
  | _, [] => []
  | i, ck :: rest =>
    if isBlank ck.1 then chunk_records repoName filePath info (i + 1) rest
    else chunk_record repoName filePath info i ck :: chunk_records repoName filePath info (i + 1) rest

/-- `CodeChunker.chunk_code_by_language` (lines 85-89): raises
`ValueError` for a language with no registered chunker, otherwise
dispatches to the chunker; the extractor is a parameter of the model. -/
def chunk_code_by_language (supported : List String)
    (extract : String → String → List (String × ChunkMeta)) (code language : String) :
    Except String (List (String × ChunkMeta)) :=
  if language ∈ supported then Except.ok (extract language code)
  else Except.error ("Unsupported language: " ++ language)

/-- `CodeChunker.process_file` (lines 91-140): everything runs inside a
try/except; any failure (I/O, modelled by an `error` input, or the
unsupported-language `ValueError`) makes the file contribute the empty
record list. -/
def process_file (supported : List String)
    (extract : String → String → List (String × ChunkMeta))
    (repoName filePath : String) (io : Except String FileRead) : List ChunkRecord :=
  match io.bind (fun fr =>
      (chunk_code_by_language supported extract fr.code fr.info.language).map
        (fun cks => chunk_records repoName filePath fr.info 0 cks)) with
  | Except.ok r => r
  | Except.error _ => []

/-- `CodeChunker.process_directory` (lines 142-157): walks the curated
files in order and extends the accumulated chunk list with each file's
records. -/
def process_directory (supported : List String)
    (extract : String → String → List (String × ChunkMeta)) (repoName : String)
    (files : List (String × Except String FileRead)) : List ChunkRecord :=
  files.foldl (fun acc f => acc ++ process_file supported extract repoName f.1 f.2) []

/-- `CodeChunker.save_jsonl` (lines 173-192): in incremental mode with a
non-empty processed set, keep the stored groups whose source is not in
`processed_files` and append the fresh chunks; otherwise write just the
fresh chunks. -/
def save_jsonl (incremental : Bool) (existingChunks : List (String × List ChunkRecord))
    (chunks : List ChunkRecord) (processedFiles : List String) : List ChunkRecord :=
  if incremental && !processedFiles.isEmpty then
    existingChunks.foldl (fun acc g => if g.1 ∈ processedFiles then acc else acc ++ g.2) []
      ++ chunks
  else chunks

/-- `CodeChunker.run` (lines 194-197) in incremental mode: the per-file
extraction results are flattened, and `processed_files` is derived from
the emitted chunks as `{chunk["source"] for chunk in chunks}` — so a
file that was reprocessed but yielded no chunks leaves no trace in
`processed_files`. -/
def run_save (existingChunks : List (String × List ChunkRecord))
    (perFile : List (String × List ChunkRecord)) : List ChunkRecord :=
  save_jsonl true existingChunks ((perFile.map Prod.snd).join)
    ((((perFile.map Prod.snd).join).map (fun c => c.source)).dedup)

/-- A concrete chunk record used to instantiate the merge claims. -/
def sample_record (src uid : String) : ChunkRecord :=
  { id := uid
    text := "t"
    source := src
    filename := "f"
    filepath := "p"
    language := "python"
    repository := "repo"
    chunk_index := 0
    type := "class"
    code_type := "class"
    name := "C"
    parent := none
    dependencies := []
    methods := []
    start_line := 1
    end_line := 2
    imports := []
    references := [] }

/-- C2: the incremental writer evaluated at the failing inputs. With
stored records for files A and B: (1) reprocessing only A, which now
yields zero chunks, writes the empty record set — B's records are lost
instead of preserved; (2) reprocessing A (zero chunks) and B (one fresh
chunk) keeps A's stale record — instead of removing it. In both runs
the claimed output (exactly B's records, resp. exactly B's fresh
record) differs from what the code writes. -/
theorem zero_chunk_reprocess_bug :
    run_save [("A", [sample_record "A" "a0"]), ("B", [sample_record "B" "b0"])]
      [("A", [])] = []
  ∧ run_save [("A", [sample_record "A" "a0"]), ("B", [sample_record "B" "b0"])]
      [("A", []), ("B", [sample_record "B" "b1"])]
      = [sample_record "A" "a0", sample_record "B" "b1"]
  ∧ ([] : List ChunkRecord) ≠ [sample_record "B" "b0"]
  ∧ [sample_record "A" "a0", sample_record "B" "b1"] ≠ [sample_record "B" "b1"] :=
  ⟨rfl, rfl, by decide, by decide⟩

theorem chunk_records_enumFrom (repoName filePath : String) (info : DocInfo) :
    ∀ (n : Nat) (cks : List (String × ChunkMeta)),
      chunk_records repoName filePath info n cks =
        ((List.enumFrom n cks).filter (fun ic => !isBlank ic.2.1)).map
          (fun ic => chunk_record repoName filePath info ic.1 ic.2) := by
  intro n cks
  induction cks generalizing n with
  | nil => rfl
  | cons ck rest ih =>
    by_cases hb : isBlank ck.1
    · simp [chunk_records, List.enumFrom, List.filter, hb, ih]
    · simp [chunk_records, List.enumFrom, List.filter, hb, ih]

/-- C9: the writer emits a record exactly for the chunks whose text has
a non-whitespace character, and each emitted record keeps the chunk's
position in the full extractor output (dropped entries included) both
as its `chunk_index` and inside the composite key of its identity — so
emitted indices need not be contiguous. -/
theorem whitespace_chunks_dropped_positions_kept :
    ∀ (repoName filePath : String) (info : DocInfo) (cks : List (String × ChunkMeta)),
      chunk_records repoName filePath info 0 cks =
        ((cks.enum.filter (fun ic => !isBlank ic.2.1)).map
          (fun ic => chunk_record repoName filePath info ic.1 ic.2))
      ∧ ∀ r ∈ chunk_records repoName filePath info 0 cks,
          r.id = generate_uid filePath
            (info.filename ++ ":" ++ r.type ++ ":" ++ toString r.chunk_index) := by
  intro repoName filePath info cks
  constructor
  · exact chunk_records_enumFrom repoName filePath info 0 cks
  · intro r hr
    rw [chunk_records_enumFrom repoName filePath info 0 cks] at hr
    obtain ⟨ic, _, rfl⟩ := List.mem_map.mp hr
    rfl

theorem process_directory_eq_join (supported : List String)
    (extract : String → String → List (String × ChunkMeta)) (repoName : String)
    (files : List (String × Except String FileRead)) :
    process_directory supported extract repoName files
      = (files.map (fun f => process_file supported extract repoName f.1 f.2)).join := by
  suffices h : ∀ (fs : List (String × Except String FileRead)) (acc : List ChunkRecord),
      fs.foldl (fun acc f => acc ++ process_file supported extract repoName f.1 f.2) acc
        = acc ++ (fs.map (fun f => process_file supported extract repoName f.1 f.2)).join by
    simpa using h files []
  intro fs
  induction fs with
  | nil => intro acc; simp
  | cons f rest ih => intro acc; simp [ih]

/-- C7: per-file failure containment. An I/O failure makes the file
contribute no records; an unsupported language (no registered chunker)
makes the file contribute no records; and a file contributing no
records drops out of the batch without affecting any other file's
records. -/
theorem per_file_failure_contained :
    (∀ (supported : List String) (extract : String → String → List (String × ChunkMeta))
      (repoName filePath msg : String),
      process_file supported extract repoName filePath (Except.error msg) = [])
  ∧ (∀ (supported : List String) (extract : String → String → List (String × ChunkMeta))
      (repoName filePath : String) (fr : FileRead),
      fr.info.language ∉ supported →
      process_file supported extract repoName filePath (Except.ok fr) = [])
  ∧ (∀ (supported : List String) (extract : String → String → List (String × ChunkMeta))
      (repoName p : String) (io : Except String FileRead)
      (pre post : List (String × Except String FileRead)),
      process_file supported extract repoName p io = [] →
      process_directory supported extract repoName (pre ++ (p, io) :: post)
        = process_directory supported extract repoName pre
          ++ process_directory supported extract repoName post) := by
  refine ⟨fun _ _ _ _ _ => rfl, ?_, ?_⟩
  · intro supported extract repoName filePath fr hlang
    simp [process_file, chunk_code_by_language, hlang, Except.bind, Except.map]
  · intro supported extract repoName p io pre post hzero
    rw [process_directory_eq_join, process_directory_eq_join, process_directory_eq_join]
    simp [hzero]

/-- C7 witness: a directory with a good file, an unsupported-language
file and an unreadable file; the failing middle file contributes
nothing and the batch output is the concatenation of the others. -/
theorem per_file_failure_contained_witness :
    process_directory ["python"] (fun _ _ => []) "repo"
        ([("f1.md", Except.ok ⟨⟨"a.py", "src/a.py", "python"⟩, "x = 1"⟩)] ++
          ("f2.md", Except.ok ⟨⟨"b.go", "src/b.go", "go"⟩, "package b"⟩) ::
          [("f3.md", Except.error "permission denied")])
      = process_directory ["python"] (fun _ _ => []) "repo"
          [("f1.md", Except.ok ⟨⟨"a.py", "src/a.py", "python"⟩, "x = 1"⟩)]
        ++ process_directory ["python"] (fun _ _ => []) "repo"
          [("f3.md", Except.error "permission denied")] :=
  per_file_failure_contained.2.2 ["python"] (fun _ _ => []) "repo" "f2.md"
    (Except.ok ⟨⟨"b.go", "src/b.go", "go"⟩, "package b"⟩)
    [("f1.md", Except.ok ⟨⟨"a.py", "src/a.py", "python"⟩, "x = 1"⟩)]
    [("f3.md", Except.error "permission denied")]
    (by decide)

/-- The enumeration order that a CPython run gives to a string set:
`list(s)` for a set `s` built by inserting the given elements in order
returns the distinct elements in an order that depends on the process
hash seed (PYTHONHASHSEED is randomized per process). Any permutation
of the distinct inserted elements is a valid enumeration. -/
structure PySetOrder where
  enum : List String → List String
  enum_perm : ∀ l : List String, (enum l).Perm l.dedup

/-- A syntax-tree node as the extractors consume it: type tag, the text
of its exact byte range, 0-indexed start and end rows, and the parent
link (the tree-sitter engine is external; nodes arrive as data). -/
structure TSNode where
  nid : Nat
  ntype : String
  text : String
  startRow : Nat
  endRow : Nat
  parentId : Option Nat
deriving DecidableEq, Repr

/-- A query capture: a node with its capture label. -/
abbrev Capture := TSNode × String

/-- The parsed tree: the node table used to resolve parent links. -/
structure STree where
  nodes : List TSNode
deriving DecidableEq, Repr

def nodeById (t : STree) (i : Nat) : Option TSNode :=
  t.nodes.find? (fun n => n.nid == i)

/-- The upward walk `parent = node.parent; while parent: ...` used by
both chunkers: follow parent links until a node of the wanted type is
found; fuel bounds the walk by the size of the node table. -/
def findAncestorOfType (t : STree) : Nat → Option Nat → String → Option TSNode
  | 0, _, _ => none
  | _ + 1, none, _ => none
  | fuel + 1, some i, ty =>
    match nodeById t i with
    | none => none
    | some n => if n.ntype = ty then some n else findAncestorOfType t fuel n.parentId ty

/-- `for i in range(0, len(caps), 2)` with the `i + 1 >= len` guard:
consume the capture list in adjacent pairs, dropping a trailing odd
element. -/
def pairUp {α : Type} : List α → List (α × α)
  | a :: b :: rest => (a, b) :: pairUp rest
  | _ => []

/-- Python `list.index`: the first position of an element. -/
def idxFrom : List Capture → Capture → Nat → Option Nat
  | [], _, _ => none
  | x :: rest, c, n => if x = c then some n else idxFrom rest c (n + 1)

def firstIndexOf (caps : List Capture) (c : Capture) : Option Nat :=
  idxFrom caps c 0

namespace PythonChunker

/-- The keyword exclusion set of `PythonChunker.extract_references`. -/
def keywords : List String :=
  ["self", "None", "True", "False", "if", "else", "for", "while", "try",
   "except", "def", "class", "return", "with", "as"]

/-- `PythonChunker.extract_references` (lines 62-74): collect the
captured identifier texts into a set, excluding empty strings and
keywords, then `list(...)` in the run's enumeration order. -/
def extract_references (env : PySetOrder) (idents : List String) : List String :=
  env.enum (idents.filter (fun s => decide (s ≠ "" ∧ s ∉ keywords)))

/-- `PythonChunker.extract_imports` (lines 39-60), a literal translation
of the string surgery on the import statement text. -/
def extract_imports (ntype text : String) : List String :=
  if ntype = "import_statement" then
    (((text.replace "import" "").trim.splitOn ",").map String.trim).filter
      (fun s => decide (s ≠ ""))
  else if ntype = "import_from_statement" then
    match text.splitOn "import" with
    | p0 :: p1 :: _ =>
      (((p1.trim.splitOn ",").map String.trim).filter (fun s => decide (s ≠ ""))).map
        (fun item => ((p0.replace "from" "").trim) ++ "." ++ item)
    | _ => []
  else []

/-- The re-scan loop of the method branch (lines 163-171): for each
capture whose node is the enclosing class node, take the capture right
after its first index in the full class-capture list and record that
node's text; the loop has no break, and an out-of-range next index
keeps the previous value. -/
def scanGo (caps : List Capture) (p : TSNode) : List Capture → Option String → Option String
  | [], acc => acc
  | cap :: rest, acc =>
    scanGo caps p rest
      (if cap.1 = p then
        match firstIndexOf caps cap with
        | some j =>
          match caps.get? (j + 1) with
          | some cap2 => some cap2.1.text
          | none => acc
        | none => acc
      else acc)

def scan_parent_class (caps : List Capture) (p : TSNode) : Option String :=
  scanGo caps p caps none

/-- Parent resolution for a Python method node: walk parent links to the
nearest `class_definition`, then re-scan the class captures for that
exact node and take the adjacent name capture; `none` when no enclosing
class exists. -/
def method_parent (t : STree) (classCaps : List Capture) (m : TSNode) : Option String :=
  match findAncestorOfType t t.nodes.length m.parentId "class_definition" with
  | some cnode => scan_parent_class classCaps cnode
  | none => none

/-- The inputs `PythonChunker.chunk_code` gets back from the external
query engine: the tree and the capture sequences of the four queries,
plus the identifier texts captured inside each node
(`query_references.captures(node)`). -/
structure PyInput where
  tree : STree
  importCaps : List Capture
  classCaps : List Capture
  funcCaps : List Capture
  methodCaps : List Capture
  identsOf : Nat → List String

/-- The file-scope import list (lines 82-87). -/
def all_imports (inp : PyInput) : List String :=
  (inp.importCaps.map (fun cap => extract_imports cap.1.ntype cap.1.text)).flatten

def class_chunk (env : PySetOrder) (inp : PyInput) (pr : Capture × Capture) :
    String × ChunkMeta :=
  let meta : ChunkMeta :=
    { content := pr.1.1.text
      start_line := pr.1.1.startRow + 1
      end_line := pr.1.1.endRow + 1
      chunk_type := "class"
      name := pr.2.1.text
      parent := none
      language := "python"
      imports := all_imports inp
      references := extract_references env (inp.identsOf pr.1.1.nid) }
  (meta.content, meta)

/-- The function branch (lines 116-150): a function chunk is emitted
only when the upward walk finds no enclosing `class_definition`. -/
def function_chunk (env : PySetOrder) (inp : PyInput) (pr : Capture × Capture) :
    Option (String × ChunkMeta) :=
  match findAncestorOfType inp.tree inp.tree.nodes.length pr.1.1.parentId "class_definition" with
  | some _ => none
  | none =>
    let meta : ChunkMeta :=
      { content := pr.1.1.text
        start_line := pr.1.1.startRow + 1
        end_line := pr.1.1.endRow + 1
        chunk_type := "function"
        name := pr.2.1.text
        parent := none
        language := "python"
        imports := all_imports inp
        references := extract_references env (inp.identsOf pr.1.1.nid) }
    some (meta.content, meta)

def method_chunk (env : PySetOrder) (inp : PyInput) (pr : Capture × Capture) :
    String × ChunkMeta :=
  let meta : ChunkMeta :=
    { content := pr.1.1.text
      start_line := pr.1.1.startRow + 1
      end_line := pr.1.1.endRow + 1
      chunk_type := "method"
      name := pr.2.1.text
      parent := method_parent inp.tree inp.classCaps pr.1.1
      language := "python"
      imports := all_imports inp
      references := extract_references env (inp.identsOf pr.1.1.nid) }
  (meta.content, meta)

/-- `PythonChunker.chunk_code` (lines 76-193): class chunks, then
top-level function chunks, then method chunks, each loop consuming its
capture sequence in adjacent (node, name) index pairs. -/
def chunk_code (env : PySetOrder) (inp : PyInput) : List (String × ChunkMeta) :=
  (pairUp inp.classCaps).map (class_chunk env inp)
    ++ (pairUp inp.funcCaps).filterMap (function_chunk env inp)
    ++ (pairUp inp.methodCaps).map (method_chunk env inp)

end PythonChunker

/-- `CodeChunker.process_file` specialized to a Python document whose
read and dispatch succeeded: the record loop applied to the Python
extraction. -/
def process_py_file (env : PySetOrder) (repoName filePath : String) (info : DocInfo)
    (inp : PythonChunker.PyInput) : List ChunkRecord :=
  chunk_records repoName filePath info 0 (PythonChunker.chunk_code env inp)

namespace JavaChunker

/-- The keyword exclusion set of `JavaChunker.extract_references`. -/
def keywords : List String :=
  ["public", "private", "protected", "class", "interface", "extends", "implements",
   "return", "if", "else", "for", "while", "try", "catch", "finally", "throw",
   "throws", "new", "this", "super", "static", "final", "void", "true", "false", "null"]

/-- `JavaChunker.extract_references` (lines 62-77). -/
def extract_references (env : PySetOrder) (idents : List String) : List String :=
  env.enum (idents.filter (fun s => decide (s ≠ "" ∧ s ∉ keywords)))

/-- The enumerated re-scan of `JavaChunker` parent resolution (lines
130-135): for every capture of the enclosing class node labelled
`class`, look at the next capture and, when labelled `class_name`,
record its node text; no break, out-of-range or mislabelled next
capture keeps the previous value. -/
def scanGo (caps : List Capture) (p : TSNode) :
    List Capture → Nat → Option String → Option String
  | [], _, acc => acc
  | cap :: rest, j, acc =>
    scanGo caps p rest (j + 1)
      (if cap.1 = p ∧ cap.2 = "class" then
        match caps.get? (j + 1) with
        | some cap2 => if cap2.2 = "class_name" then some cap2.1.text else acc
        | none => acc
      else acc)

def scan_parent (caps : List Capture) (p : TSNode) : Option String :=
  scanGo caps p caps 0 none

/-- Parent resolution for a Java method or constructor node: walk parent
links to the nearest `class_declaration`, then re-scan the full capture
sequence for that exact node; `none` for a top-level member. -/
def member_parent (t : STree) (caps : List Capture) (n : TSNode) : Option String :=
  match findAncestorOfType t t.nodes.length n.parentId "class_declaration" with
  | some cnode => scan_parent caps cnode
  | none => none

/-- The inputs `JavaChunker.chunk_code` gets back from the external
query engine: tree, the single declaration capture sequence, the
file-scope import list (the regex-based `extract_imports` consumes the
external `re` module, so its result is an input here), and the captured
identifier texts inside each node. -/
structure JavaInput where
  tree : STree
  caps : List Capture
  importsList : List String
  identsOf : Nat → List String

def class_chunk (env : PySetOrder) (inp : JavaInput) (node nameNode : TSNode) :
    String × ChunkMeta :=
  let meta : ChunkMeta :=
    { content := node.text
      start_line := node.startRow + 1
      end_line := node.endRow + 1
      chunk_type := "class"
      name := nameNode.text
      parent := none
      language := "java"
      imports := inp.importsList
      references := extract_references env (inp.identsOf node.nid) }
  (meta.content, meta)

def method_chunk (env : PySetOrder) (inp : JavaInput) (node nameNode : TSNode) :
    String × ChunkMeta :=
  let meta : ChunkMeta :=
    { content := node.text
      start_line := node.startRow + 1
      end_line := node.endRow + 1
      chunk_type := "method"
      name := nameNode.text
      parent := member_parent inp.tree inp.caps node
      language := "java"
      imports := inp.importsList
      references := extract_references env (inp.identsOf node.nid) }
  (meta.content, meta)

def constructor_chunk (env : PySetOrder) (inp : JavaInput) (node nameNode : TSNode) :
    String × ChunkMeta :=
  let meta : ChunkMeta :=
    { content := node.text
      start_line := node.startRow + 1
      end_line := node.endRow + 1
      chunk_type := "constructor"
      name := nameNode.text
      parent := member_parent inp.tree inp.caps node
      language := "java"
      imports := inp.importsList
      references := extract_references env (inp.identsOf node.nid) }
  (meta.content, meta)

/-- The cursor loop of `JavaChunker.chunk_code` (lines 87-199): at a
declaration label, emit a chunk and advance by two when the next
capture carries the matching name label, otherwise advance by one. -/
def walk (env : PySetOrder) (inp : JavaInput) : List Capture → List (String × ChunkMeta)
  | [] => []
  | [_] => []
  | cap :: cap2 :: rest2 =>
    if cap.2 = "class" then
      (if cap2.2 = "class_name" then
        class_chunk env inp cap.1 cap2.1 :: walk env inp rest2
      else walk env inp (cap2 :: rest2))
    else if cap.2 = "method" then
      (if cap2.2 = "method_name" then
        method_chunk env inp cap.1 cap2.1 :: walk env inp rest2
      else walk env inp (cap2 :: rest2))
    else if cap.2 = "constructor" then
      (if cap2.2 = "constructor_name" then
        constructor_chunk env inp cap.1 cap2.1 :: walk env inp rest2
      else walk env inp (cap2 :: rest2))
    else walk env inp (cap2 :: rest2)

def chunk_code (env : PySetOrder) (inp : JavaInput) : List (String × ChunkMeta) :=
  walk env inp inp.caps

end JavaChunker

/-- One possible run enumeration of a CPython string set: insertion
order of the distinct elements. -/
def orderA : PySetOrder :=
  { enum := fun l => l.dedup
    enum_perm := fun _ => List.Perm.refl _ }

/-- Another possible run enumeration (a different process hash seed):
the reverse of the insertion order. -/
def orderB : PySetOrder :=
  { enum := fun l => l.dedup.reverse
    enum_perm := fun l => List.reverse_perm l.dedup }

def c3FuncNode : TSNode :=
  { nid := 0
    ntype := "function_definition"
    text := "def f():\n    alpha(beta)"
    startRow := 0
    endRow := 1
    parentId := none }

def c3NameNode : TSNode :=
  { nid := 1
    ntype := "identifier"
    text := "f"
    startRow := 0
    endRow := 0
    parentId := some 0 }

def c3Tree : STree := { nodes := [c3FuncNode, c3NameNode] }

def c3Info : DocInfo :=
  { filename := "f.py"
    filepath := "src/f.py"
    language := "python" }

def c3Inp : PythonChunker.PyInput :=
  { tree := c3Tree
    importCaps := []
    classCaps := []
    funcCaps := [(c3FuncNode, "function"), (c3NameNode, "function_name")]
    methodCaps := []
    identsOf := fun i => if i = 0 then ["f", "alpha", "beta"] else [] }

/-- C3, counterexample. The claim says two runs over byte-identical
input yield identical chunk record sets, order included, and in
particular identical references lists. The references list is
`list(set)` over a hash-seed-dependent set, so two runs with different
seeds produce the same records up to the order of `references` but not
equal records: here the two enumeration orders give
`["f", "alpha", "beta"]` and `["beta", "alpha", "f"]`. -/
theorem rerun_identical_output_cex :
    process_py_file orderA "repo" "/x/f.md" c3Info c3Inp ≠
      process_py_file orderB "repo" "/x/f.md" c3Info c3Inp := by
  decide

/-- Record equality on every field except `references`, which only has
to agree up to order. -/
def agreesExceptReferences (a b : ChunkRecord) : Prop :=
  a.id = b.id ∧ a.text = b.text ∧ a.source = b.source ∧ a.filename = b.filename ∧
  a.filepath = b.filepath ∧ a.language = b.language ∧ a.repository = b.repository ∧
  a.chunk_index = b.chunk_index ∧ a.type = b.type ∧ a.code_type = b.code_type ∧
  a.name = b.name ∧ a.parent = b.parent ∧ a.dependencies = b.dependencies ∧
  a.methods = b.methods ∧ a.start_line = b.start_line ∧ a.end_line = b.end_line ∧
  a.imports = b.imports ∧ a.references.Perm b.references

/-- Extractor-output agreement on every field except the order of
`references`. -/
def metaAgreesExceptReferences (x y : String × ChunkMeta) : Prop :=
  x.1 = y.1 ∧ x.2.content = y.2.content ∧ x.2.start_line = y.2.start_line ∧
  x.2.end_line = y.2.end_line ∧ x.2.chunk_type = y.2.chunk_type ∧ x.2.name = y.2.name ∧
  x.2.parent = y.2.parent ∧ x.2.language = y.2.language ∧ x.2.imports = y.2.imports ∧
  x.2.references.Perm y.2.references

theorem extract_references_perm (env1 env2 : PySetOrder) (idents : List String) :
    (PythonChunker.extract_references env1 idents).Perm
      (PythonChunker.extract_references env2 idents) :=
  (env1.enum_perm _).trans (env2.enum_perm _).symm

theorem forall₂_map_same {α β : Type} (R : β → β → Prop) (f g : α → β) :
    ∀ l : List α, (∀ a ∈ l, R (f a) (g a)) → List.Forall₂ R (l.map f) (l.map g) := by
  intro l
  induction l with
  | nil => intro _; exact List.Forall₂.nil
  | cons a rest ih =>
    intro h
    exact List.Forall₂.cons (h a (List.mem_cons_self _ _))
      (ih fun b hb => h b (List.mem_cons_of_mem _ hb))

theorem forall₂_filterMap_same {α β : Type} (R : β → β → Prop) (f g : α → Option β) :
    ∀ l : List α,
      (∀ a ∈ l, (f a = none ∧ g a = none) ∨ ∃ x y, f a = some x ∧ g a = some y ∧ R x y) →
      List.Forall₂ R (l.filterMap f) (l.filterMap g) := by
  intro l
  induction l with
  | nil => intro _; exact List.Forall₂.nil
  | cons a rest ih =>
    intro h
    have htail := ih fun b hb => h b (List.mem_cons_of_mem _ hb)
    rcases h a (List.mem_cons_self _ _) with ⟨hfa, hga⟩ | ⟨x, y, hfa, hga, hr⟩
    · rw [List.filterMap_cons, List.filterMap_cons, hfa, hga]
      exact htail
    · rw [List.filterMap_cons, List.filterMap_cons, hfa, hga]
      exact List.Forall₂.cons hr htail

theorem chunk_code_agrees (env1 env2 : PySetOrder) (inp : PythonChunker.PyInput) :
    List.Forall₂ metaAgreesExceptReferences
      (PythonChunker.chunk_code env1 inp) (PythonChunker.chunk_code env2 inp) := by
  unfold PythonChunker.chunk_code
  refine List.rel_append (List.rel_append ?_ ?_) ?_
  · refine forall₂_map_same metaAgreesExceptReferences _ _ _ fun pr _ => ?_
    exact ⟨rfl, rfl, rfl, rfl, rfl, rfl, rfl, rfl, rfl,
      extract_references_perm env1 env2 _⟩
  · refine forall₂_filterMap_same _ _ _ _ fun pr _ => ?_
    unfold PythonChunker.function_chunk
    cases findAncestorOfType inp.tree inp.tree.nodes.length pr.1.1.parentId
        "class_definition" with
    | some c => exact Or.inl ⟨rfl, rfl⟩
    | none =>
      exact Or.inr ⟨_, _, rfl, rfl,
        ⟨rfl, rfl, rfl, rfl, rfl, rfl, rfl, rfl, rfl,
          extract_references_perm env1 env2 _⟩⟩
  · refine forall₂_map_same metaAgreesExceptReferences _ _ _ fun pr _ => ?_
    exact ⟨rfl, rfl, rfl, rfl, rfl, rfl, rfl, rfl, rfl,
      extract_references_perm env1 env2 _⟩

theorem chunk_records_agree (repoName filePath : String) (info : DocInfo)
    {cks1 cks2 : List (String × ChunkMeta)}
    (h : List.Forall₂ metaAgreesExceptReferences cks1 cks2) :
    ∀ n : Nat, List.Forall₂ agreesExceptReferences
      (chunk_records repoName filePath info n cks1)
      (chunk_records repoName filePath info n cks2) := by
  induction h with
  | nil => intro n; exact List.Forall₂.nil
  | @cons a b l1 l2 hab hrest ih =>
    intro n
    obtain ⟨hfst, hcontent, hsl, hel, hct, hname, hparent, hlang, himp, hrefs⟩ := hab
    by_cases hb : isBlank a.1 = true
    · have hb2 : isBlank b.1 = true := by rw [← hfst]; exact hb
      show List.Forall₂ _
        (if isBlank a.1 then chunk_records repoName filePath info (n + 1) l1
          else chunk_record repoName filePath info n a ::
            chunk_records repoName filePath info (n + 1) l1)
        (if isBlank b.1 then chunk_records repoName filePath info (n + 1) l2
          else chunk_record repoName filePath info n b ::
            chunk_records repoName filePath info (n + 1) l2)
      rw [if_pos hb, if_pos hb2]
      exact ih (n + 1)
    · have hb2 : ¬ isBlank b.1 = true := by rw [← hfst]; exact hb
      show List.Forall₂ _
        (if isBlank a.1 then chunk_records repoName filePath info (n + 1) l1
          else chunk_record repoName filePath info n a ::
            chunk_records repoName filePath info (n + 1) l1)
        (if isBlank b.1 then chunk_records repoName filePath info (n + 1) l2
          else chunk_record repoName filePath info n b ::
            chunk_records repoName filePath info (n + 1) l2)
      rw [if_neg hb, if_neg hb2]
      refine List.Forall₂.cons ?_ (ih (n + 1))
      unfold agreesExceptReferences chunk_record
      dsimp only
      exact ⟨by rw [hct], hcontent, rfl, rfl, rfl, rfl, rfl, rfl, by rw [hct],
        by rw [hct], hname, hparent, rfl, rfl, hsl, hel, himp, hrefs⟩

theorem forall₂_id_map {l1 l2 : List ChunkRecord}
    (h : List.Forall₂ agreesExceptReferences l1 l2) :
    l1.map (fun r => r.id) = l2.map (fun r => r.id) := by
  induction h with
  | nil => rfl
  | @cons a b t1 t2 hab _ ih =>
    show a.id :: t1.map (fun r => r.id) = b.id :: t2.map (fun r => r.id)
    rw [hab.1, ih]

/-- C3, amended: re-running extraction on byte-identical input is
stable up to the order of each record's `references` list: the two
outputs have pairwise equal identities (each a pure function of the
file path and the `filename:chunk_type:index` composite key), equal
values on every other field (imports included), and `references` lists
equal up to permutation; in particular the identity streams of the two
runs are byte-identical. -/
theorem rerun_output_stable_up_to_reference_order :
    ∀ (env1 env2 : PySetOrder) (repoName filePath : String) (info : DocInfo)
      (inp : PythonChunker.PyInput),
      List.Forall₂ agreesExceptReferences
        (process_py_file env1 repoName filePath info inp)
        (process_py_file env2 repoName filePath info inp) ∧
      (process_py_file env1 repoName filePath info inp).map (fun r => r.id)
        = (process_py_file env2 repoName filePath info inp).map (fun r => r.id) := by
  intro env1 env2 repoName filePath info inp
  have h := chunk_records_agree repoName filePath info
    (chunk_code_agrees env1 env2 inp) 0
  exact ⟨h, forall₂_id_map h⟩

theorem idxFrom_eq (l2 : List Capture) (c : Capture) :
    ∀ (l1 : List Capture), c ∉ l1 → ∀ n : Nat,
      idxFrom (l1 ++ c :: l2) c n = some (n + l1.length) := by
  intro l1
  induction l1 with
  | nil =>
    intro _ n
    show (if c = c then some n else idxFrom l2 c (n + 1)) = some (n + 0)
    rw [if_pos rfl]
    rfl
  | cons x rest ih =>
    intro hnm n
    have hx : ¬ x = c := fun he => hnm (he ▸ List.mem_cons_self x rest)
    show (if x = c then some n else idxFrom (rest ++ c :: l2) c (n + 1))
      = some (n + (rest.length + 1))
    rw [if_neg hx, ih (fun hm => hnm (List.mem_cons_of_mem _ hm)) (n + 1)]
    congr 1
    omega

theorem pyScanGo_no_match (caps : List Capture) (p : TSNode) :
    ∀ (rem : List Capture) (acc : Option String), (∀ x ∈ rem, x.1 ≠ p) →
      PythonChunker.scanGo caps p rem acc = acc := by
  intro rem
  induction rem with
  | nil => intro _ _; rfl
  | cons cap rest ih =>
    intro acc h
    have hcap : ¬ cap.1 = p := h cap (List.mem_cons_self _ _)
    show PythonChunker.scanGo caps p rest
      (if cap.1 = p then
        match firstIndexOf caps cap with
        | some j =>
          match caps.get? (j + 1) with
          | some cap2 => some cap2.1.text
          | none => acc
        | none => acc
      else acc) = acc
    rw [if_neg hcap]
    exact ih acc fun x hx => h x (List.mem_cons_of_mem _ hx)

theorem pyScanGo_append (caps : List Capture) (p : TSNode) :
    ∀ (xs ys : List Capture) (acc : Option String),
      PythonChunker.scanGo caps p (xs ++ ys) acc
        = PythonChunker.scanGo caps p ys (PythonChunker.scanGo caps p xs acc) := by
  intro xs
  induction xs with
  | nil => intro _ _; rfl
  | cons x rest ih => intro ys acc; exact ih ys _

theorem scan_parent_class_eq (l1 l2 : List Capture) (c : TSNode) (lbl : String)
    (cnCap : Capture)
    (h1 : ∀ x ∈ l1, x.1 ≠ c) (h2 : ∀ x ∈ l2, x.1 ≠ c) (hcn : cnCap.1 ≠ c) :
    PythonChunker.scan_parent_class (l1 ++ (c, lbl) :: cnCap :: l2) c
      = some cnCap.1.text := by
  have hnm1 : (c, lbl) ∉ l1 := fun hmem => (h1 _ hmem) rfl
  have hidx : firstIndexOf (l1 ++ (c, lbl) :: cnCap :: l2) (c, lbl) = some l1.length := by
    have h := idxFrom_eq (cnCap :: l2) (c, lbl) l1 hnm1 0
    simpa using h
  have hget : (l1 ++ (c, lbl) :: cnCap :: l2).get? (l1.length + 1) = some cnCap := by
    rw [List.get?_append_right (Nat.le_add_right _ _)]
    simp
  show PythonChunker.scanGo (l1 ++ (c, lbl) :: cnCap :: l2) c
      (l1 ++ (c, lbl) :: cnCap :: l2) none = some cnCap.1.text
  rw [pyScanGo_append, pyScanGo_no_match _ _ l1 none h1]
  show PythonChunker.scanGo (l1 ++ (c, lbl) :: cnCap :: l2) c (cnCap :: l2)
      (if (c, lbl).1 = c then
        match firstIndexOf (l1 ++ (c, lbl) :: cnCap :: l2) (c, lbl) with
        | some j =>
          match (l1 ++ (c, lbl) :: cnCap :: l2).get? (j + 1) with
          | some cap2 => some cap2.1.text
          | none => none
        | none => none
      else none) = some cnCap.1.text
  rw [if_pos rfl, hidx]
  show PythonChunker.scanGo (l1 ++ (c, lbl) :: cnCap :: l2) c (cnCap :: l2)
      (match (l1 ++ (c, lbl) :: cnCap :: l2).get? (l1.length + 1) with
        | some cap2 => some cap2.1.text
        | none => none) = some cnCap.1.text
  rw [hget]
  exact pyScanGo_no_match _ _ (cnCap :: l2) _ fun x hx => by
    rcases List.mem_cons.mp hx with rfl | hx2
    · exact hcn
    · exact h2 x hx2

theorem javaScanGo_no_match (caps : List Capture) (p : TSNode) :
    ∀ (rem : List Capture) (j : Nat) (acc : Option String),
      (∀ x ∈ rem, ¬(x.1 = p ∧ x.2 = "class")) →
      JavaChunker.scanGo caps p rem j acc = acc := by
  intro rem
  induction rem with
  | nil => intro _ _ _; rfl
  | cons cap rest ih =>
    intro j acc h
    have hcap : ¬(cap.1 = p ∧ cap.2 = "class") := h cap (List.mem_cons_self _ _)
    show JavaChunker.scanGo caps p rest (j + 1)
      (if cap.1 = p ∧ cap.2 = "class" then
        match caps.get? (j + 1) with
        | some cap2 => if cap2.2 = "class_name" then some cap2.1.text else acc
        | none => acc
      else acc) = acc
    rw [if_neg hcap]
    exact ih (j + 1) acc fun x hx => h x (List.mem_cons_of_mem _ hx)

theorem javaScanGo_append (caps : List Capture) (p : TSNode) :
    ∀ (xs ys : List Capture) (j : Nat) (acc : Option String),
      JavaChunker.scanGo caps p (xs ++ ys) j acc
        = JavaChunker.scanGo caps p ys (j + xs.length) (JavaChunker.scanGo caps p xs j acc) := by
  intro xs
  induction xs with
  | nil => intro _ _ _; rfl
  | cons x rest ih =>
    intro ys j acc
    show JavaChunker.scanGo caps p (rest ++ ys) (j + 1) _
      = JavaChunker.scanGo caps p ys (j + (rest.length + 1)) _
    rw [ih ys (j + 1)]
    congr 1
    omega

theorem scan_parent_eq (l1 l2 : List Capture) (c cn : TSNode)
    (h1 : ∀ x ∈ l1, ¬(x.1 = c ∧ x.2 = "class"))
    (h2 : ∀ x ∈ l2, ¬(x.1 = c ∧ x.2 = "class")) :
    JavaChunker.scan_parent (l1 ++ (c, "class") :: (cn, "class_name") :: l2) c
      = some cn.text := by
  have hget : (l1 ++ (c, "class") :: (cn, "class_name") :: l2).get? (l1.length + 1)
      = some (cn, "class_name") := by
    rw [List.get?_append_right (Nat.le_add_right _ _)]
    simp
  show JavaChunker.scanGo (l1 ++ (c, "class") :: (cn, "class_name") :: l2) c
      (l1 ++ (c, "class") :: (cn, "class_name") :: l2) 0 none = some cn.text
  rw [javaScanGo_append, javaScanGo_no_match _ _ l1 0 none h1]
  show JavaChunker.scanGo (l1 ++ (c, "class") :: (cn, "class_name") :: l2) c
      ((cn, "class_name") :: l2) (0 + l1.length + 1)
      (if (c, "class").1 = c ∧ (c, "class").2 = "class" then
        match (l1 ++ (c, "class") :: (cn, "class_name") :: l2).get? (0 + l1.length + 1) with
        | some cap2 => if cap2.2 = "class_name" then some cap2.1.text else none
        | none => none
      else none) = some cn.text
  rw [if_pos ⟨rfl, rfl⟩]
  have hz : 0 + l1.length = l1.length := Nat.zero_add _
  rw [hz, hget]
  show JavaChunker.scanGo (l1 ++ (c, "class") :: (cn, "class_name") :: l2) c
      ((cn, "class_name") :: l2) (l1.length + 1)
      (if ("class_name" : String) = "class_name" then some cn.text else none) = some cn.text
  rw [if_pos rfl]
  have hne : ("class_name" : String) ≠ "class" := by decide
  exact javaScanGo_no_match _ _ ((cn, "class_name") :: l2) _ _ fun x hx => by
    rcases List.mem_cons.mp hx with rfl | hx2
    · exact fun hco => hne hco.2
    · exact h2 x hx2

theorem walk_append_exists (env : PySetOrder) (inp : JavaChunker.JavaInput)
    (suffix : List Capture)
    (hhead : ∀ cap2 l0, suffix = cap2 :: l0 →
      cap2.2 ≠ "class_name" ∧ cap2.2 ≠ "method_name" ∧ cap2.2 ≠ "constructor_name") :
    ∀ (k : Nat) (pre : List Capture), pre.length ≤ k →
      ∃ out, JavaChunker.walk env inp (pre ++ suffix)
        = out ++ JavaChunker.walk env inp suffix := by
  intro k
  induction k with
  | zero =>
    intro pre hlen
    have hpre : pre = [] := List.eq_nil_of_length_eq_zero (Nat.le_zero.mp hlen)
    subst hpre
    exact ⟨[], rfl⟩
  | succ k ih =>
    intro pre hlen
    match pre with
    | [] => exact ⟨[], rfl⟩
    | [x] =>
      cases hsuf : suffix with
      | nil =>
        exact ⟨[], rfl⟩
      | cons cap2 l0 =>
        obtain ⟨hn1, hn2, hn3⟩ := hhead cap2 l0 hsuf
        refine ⟨[], ?_⟩
        show JavaChunker.walk env inp (x :: cap2 :: l0)
          = [] ++ JavaChunker.walk env inp (cap2 :: l0)
        rw [List.nil_append]
        by_cases hx1 : x.2 = "class"
        · simp only [JavaChunker.walk, if_pos hx1, if_neg hn1]
        · by_cases hx2 : x.2 = "method"
          · simp only [JavaChunker.walk, if_neg hx1, if_pos hx2, if_neg hn2]
          · by_cases hx3 : x.2 = "constructor"
            · simp only [JavaChunker.walk, if_neg hx1, if_neg hx2, if_pos hx3, if_neg hn3]
            · simp only [JavaChunker.walk, if_neg hx1, if_neg hx2, if_neg hx3]
    | x :: y :: pre2 =>
      have hlen2 : (y :: pre2).length ≤ k := by
        simp only [List.length_cons] at hlen ⊢
        omega
      have hlen3 : pre2.length ≤ k := by
        simp only [List.length_cons] at hlen
        omega
      by_cases hx1 : x.2 = "class"
      · by_cases hy1 : y.2 = "class_name"
        · obtain ⟨out, hout⟩ := ih pre2 hlen3
          refine ⟨JavaChunker.class_chunk env inp x.1 y.1 :: out, ?_⟩
          show JavaChunker.walk env inp (x :: y :: (pre2 ++ suffix)) = _
          simp only [JavaChunker.walk, if_pos hx1, if_pos hy1]
          rw [hout]
          rfl
        · obtain ⟨out, hout⟩ := ih (y :: pre2) hlen2
          refine ⟨out, ?_⟩
          show JavaChunker.walk env inp (x :: y :: (pre2 ++ suffix)) = _
          simp only [JavaChunker.walk, if_pos hx1, if_neg hy1]
          exact hout
      · by_cases hx2 : x.2 = "method"
        · by_cases hy2 : y.2 = "method_name"
          · obtain ⟨out, hout⟩ := ih pre2 hlen3
            refine ⟨JavaChunker.method_chunk env inp x.1 y.1 :: out, ?_⟩
            show JavaChunker.walk env inp (x :: y :: (pre2 ++ suffix)) = _
            simp only [JavaChunker.walk, if_neg hx1, if_pos hx2, if_pos hy2]
            rw [hout]
            rfl
          · obtain ⟨out, hout⟩ := ih (y :: pre2) hlen2
            refine ⟨out, ?_⟩
            show JavaChunker.walk env inp (x :: y :: (pre2 ++ suffix)) = _
            simp only [JavaChunker.walk, if_neg hx1, if_pos hx2, if_neg hy2]
            exact hout
        · by_cases hx3 : x.2 = "constructor"
          · by_cases hy3 : y.2 = "constructor_name"
            · obtain ⟨out, hout⟩ := ih pre2 hlen3
              refine ⟨JavaChunker.constructor_chunk env inp x.1 y.1 :: out, ?_⟩
              show JavaChunker.walk env inp (x :: y :: (pre2 ++ suffix)) = _
              simp only [JavaChunker.walk, if_neg hx1, if_neg hx2, if_pos hx3, if_pos hy3]
              rw [hout]
              rfl
            · obtain ⟨out, hout⟩ := ih (y :: pre2) hlen2
              refine ⟨out, ?_⟩
              show JavaChunker.walk env inp (x :: y :: (pre2 ++ suffix)) = _
              simp only [JavaChunker.walk, if_neg hx1, if_neg hx2, if_pos hx3, if_neg hy3]
              exact hout
          · obtain ⟨out, hout⟩ := ih (y :: pre2) hlen2
            refine ⟨out, ?_⟩
            show JavaChunker.walk env inp (x :: y :: (pre2 ++ suffix)) = _
            simp only [JavaChunker.walk, if_neg hx1, if_neg hx2, if_neg hx3]
            exact hout

theorem walk_method_cons (env : PySetOrder) (inp : JavaChunker.JavaInput)
    (nd nn : TSNode) (post : List Capture) :
    JavaChunker.walk env inp ((nd, "method") :: (nn, "method_name") :: post)
      = JavaChunker.method_chunk env inp nd nn :: JavaChunker.walk env inp post := rfl

theorem walk_constructor_cons (env : PySetOrder) (inp : JavaChunker.JavaInput)
    (nd nn : TSNode) (post : List Capture) :
    JavaChunker.walk env inp ((nd, "constructor") :: (nn, "constructor_name") :: post)
      = JavaChunker.constructor_chunk env inp nd nn :: JavaChunker.walk env inp post := rfl

/-- C6: parent resolution. (1) For a Python method node whose ancestor
walk reaches the class node `c`, re-scanning well-formed class captures
(the pair for `c` occurring once, adjacent to its name capture) yields
that class's name capture text. (2) Every method pair emits a chunk
whose `parent` field is exactly this resolution. (3) Every emitted
chunk of type `function` (emitted only when no enclosing class exists)
has `parent` unset. (4) For a Java method or constructor node whose
ancestor walk reaches class node `c`, the enumerated re-scan of
well-formed captures yields the class name. (5)-(6) Java method and
constructor capture pairs emit chunks carrying exactly that resolved
parent. -/
theorem parent_resolution_correct :
    (∀ (t : STree) (m c : TSNode) (lbl : String) (cnCap : Capture) (l1 l2 : List Capture),
      findAncestorOfType t t.nodes.length m.parentId "class_definition" = some c →
      (∀ x ∈ l1, x.1 ≠ c) → (∀ x ∈ l2, x.1 ≠ c) → cnCap.1 ≠ c →
      PythonChunker.method_parent t (l1 ++ (c, lbl) :: cnCap :: l2) m = some cnCap.1.text)
  ∧ (∀ (env : PySetOrder) (inp : PythonChunker.PyInput) (pr : Capture × Capture),
      pr ∈ pairUp inp.methodCaps →
      PythonChunker.method_chunk env inp pr ∈ PythonChunker.chunk_code env inp ∧
      (PythonChunker.method_chunk env inp pr).2.parent
        = PythonChunker.method_parent inp.tree inp.classCaps pr.1.1)
  ∧ (∀ (env : PySetOrder) (inp : PythonChunker.PyInput) (ch : String × ChunkMeta),
      ch ∈ PythonChunker.chunk_code env inp → ch.2.chunk_type = "function" →
      ch.2.parent = none)
  ∧ (∀ (t : STree) (n c cn : TSNode) (l1 l2 : List Capture),
      findAncestorOfType t t.nodes.length n.parentId "class_declaration" = some c →
      (∀ x ∈ l1, ¬(x.1 = c ∧ x.2 = "class")) →
      (∀ x ∈ l2, ¬(x.1 = c ∧ x.2 = "class")) →
      JavaChunker.member_parent t (l1 ++ (c, "class") :: (cn, "class_name") :: l2) n
        = some cn.text)
  ∧ (∀ (env : PySetOrder) (inp : JavaChunker.JavaInput) (pre post : List Capture)
      (nd nn : TSNode),
      inp.caps = pre ++ (nd, "method") :: (nn, "method_name") :: post →
      JavaChunker.method_chunk env inp nd nn ∈ JavaChunker.chunk_code env inp ∧
      (JavaChunker.method_chunk env inp nd nn).2.parent
        = JavaChunker.member_parent inp.tree inp.caps nd)
  ∧ (∀ (env : PySetOrder) (inp : JavaChunker.JavaInput) (pre post : List Capture)
      (nd nn : TSNode),
      inp.caps = pre ++ (nd, "constructor") :: (nn, "constructor_name") :: post →
      JavaChunker.constructor_chunk env inp nd nn ∈ JavaChunker.chunk_code env inp ∧
      (JavaChunker.constructor_chunk env inp nd nn).2.parent
        = JavaChunker.member_parent inp.tree inp.caps nd) := by
  refine ⟨?_, ?_, ?_, ?_, ?_, ?_⟩
  · intro t m c lbl cnCap l1 l2 hanc h1 h2 hcn
    unfold PythonChunker.method_parent
    rw [hanc]
    exact scan_parent_class_eq l1 l2 c lbl cnCap h1 h2 hcn
  · intro env inp pr hpr
    constructor
    · exact List.mem_append_right _ (List.mem_map_of_mem _ hpr)
    · rfl
  · intro env inp ch hch hty
    rcases List.mem_append.mp hch with hab | hc
    · rcases List.mem_append.mp hab with ha | hb
      · obtain ⟨pr, _, rfl⟩ := List.mem_map.mp ha
        rfl
      · obtain ⟨pr, _, hpr⟩ := List.mem_filterMap.mp hb
        unfold PythonChunker.function_chunk at hpr
        cases hanc : findAncestorOfType inp.tree inp.tree.nodes.length pr.1.1.parentId
            "class_definition" with
        | some c => rw [hanc] at hpr; cases hpr
        | none =>
          rw [hanc] at hpr
          injection hpr with h
          rw [← h]
    · obtain ⟨pr, _, rfl⟩ := List.mem_map.mp hc
      have hne : ("method" : String) ≠ "function" := by decide
      exact absurd hty hne
  · intro t n c cn l1 l2 hanc h1 h2
    unfold JavaChunker.member_parent
    rw [hanc]
    exact scan_parent_eq l1 l2 c cn h1 h2
  · intro env inp pre post nd nn hcaps
    constructor
    · have hhead : ∀ (cap2 : Capture) (l0 : List Capture),
          (nd, "method") :: (nn, "method_name") :: post = cap2 :: l0 →
          cap2.2 ≠ "class_name" ∧ cap2.2 ≠ "method_name" ∧ cap2.2 ≠ "constructor_name" := by
        intro cap2 l0 heq
        injection heq with he1 _
        rw [← he1]
        exact ⟨fun h => (by decide : ("method" : String) ≠ "class_name") h,
          fun h => (by decide : ("method" : String) ≠ "method_name") h,
          fun h => (by decide : ("method" : String) ≠ "constructor_name") h⟩
      obtain ⟨out, hout⟩ := walk_append_exists env inp
        ((nd, "method") :: (nn, "method_name") :: post) hhead pre.length pre (Nat.le_refl _)
      show JavaChunker.method_chunk env inp nd nn ∈ JavaChunker.walk env inp inp.caps
      rw [hcaps, hout, walk_method_cons]
      exact List.mem_append_right _ (List.mem_cons_self _ _)
    · rfl
  · intro env inp pre post nd nn hcaps
    constructor
    · have hhead : ∀ (cap2 : Capture) (l0 : List Capture),
          (nd, "constructor") :: (nn, "constructor_name") :: post = cap2 :: l0 →
          cap2.2 ≠ "class_name" ∧ cap2.2 ≠ "method_name" ∧ cap2.2 ≠ "constructor_name" := by
        intro cap2 l0 heq
        injection heq with he1 _
        rw [← he1]
        exact ⟨fun h => (by decide : ("constructor" : String) ≠ "class_name") h,
          fun h => (by decide : ("constructor" : String) ≠ "method_name") h,
          fun h => (by decide : ("constructor" : String) ≠ "constructor_name") h⟩
      obtain ⟨out, hout⟩ := walk_append_exists env inp
        ((nd, "constructor") :: (nn, "constructor_name") :: post) hhead pre.length pre
        (Nat.le_refl _)
      show JavaChunker.constructor_chunk env inp nd nn ∈ JavaChunker.walk env inp inp.caps
      rw [hcaps, hout, walk_constructor_cons]
      exact List.mem_append_right _ (List.mem_cons_self _ _)
    · rfl

def pyClassNode : TSNode :=
  { nid := 0
    ntype := "class_definition"
    text := "class Foo:\n    def bar(self):\n        pass"
    startRow := 0
    endRow := 2
    parentId := none }

def pyClassName : TSNode :=
  { nid := 1
    ntype := "identifier"
    text := "Foo"
    startRow := 0
    endRow := 0
    parentId := some 0 }

def pyBlockNode : TSNode :=
  { nid := 2
    ntype := "block"
    text := "def bar(self):\n        pass"
    startRow := 1
    endRow := 2
    parentId := some 0 }

def pyMethodNode : TSNode :=
  { nid := 3
    ntype := "function_definition"
    text := "def bar(self):\n        pass"
    startRow := 1
    endRow := 2
    parentId := some 2 }

def pyMethodName : TSNode :=
  { nid := 4
    ntype := "identifier"
    text := "bar"
    startRow := 1
    endRow := 1
    parentId := some 3 }

def pyDemoTree : STree :=
  { nodes := [pyClassNode, pyClassName, pyBlockNode, pyMethodNode, pyMethodName] }

def jClassNode : TSNode :=
  { nid := 10
    ntype := "class_declaration"
    text := "class Foo { void bar() {} }"
    startRow := 0
    endRow := 0
    parentId := none }

def jClassName : TSNode :=
  { nid := 11
    ntype := "identifier"
    text := "Foo"
    startRow := 0
    endRow := 0
    parentId := some 10 }

def jBodyNode : TSNode :=
  { nid := 12
    ntype := "class_body"
    text := "{ void bar() {} }"
    startRow := 0
    endRow := 0
    parentId := some 10 }

def jMethodNode : TSNode :=
  { nid := 13
    ntype := "method_declaration"
    text := "void bar() {}"
    startRow := 0
    endRow := 0
    parentId := some 12 }

def jMethodName : TSNode :=
  { nid := 14
    ntype := "identifier"
    text := "bar"
    startRow := 0
    endRow := 0
    parentId := some 13 }

def jDemoTree : STree :=
  { nodes := [jClassNode, jClassName, jBodyNode, jMethodNode, jMethodName] }

/-- C6 witness: a method `bar` nested in class `Foo` resolves to parent
`Foo` in both the Python and the Java model, on concrete trees. -/
theorem parent_resolution_correct_witness :
    PythonChunker.method_parent pyDemoTree
        [(pyClassNode, "class"), (pyClassName, "class_name")] pyMethodNode = some "Foo"
  ∧ JavaChunker.member_parent jDemoTree
        [(jClassNode, "class"), (jClassName, "class_name"), (jMethodNode, "method"),
          (jMethodName, "method_name")] jMethodNode = some "Foo" :=
  ⟨parent_resolution_correct.1 pyDemoTree pyMethodNode pyClassNode "class"
      (pyClassName, "class_name") [] [] (by decide) (by decide) (by decide) (by decide),
    parent_resolution_correct.2.2.2.1 jDemoTree jMethodNode jClassNode jClassName []
      [(jMethodNode, "method"), (jMethodName, "method_name")]
      (by decide) (by decide) (by decide)⟩
